import Mathlib

/-!
Verification of the heredity inference engine (`heredity.py`).

The Python source is embedded shallowly: the probability model `PROBS`
becomes rational-valued tables, the person registry becomes an
association list, the gene/trait assignments become finite sets, and
each function (`powerset`, `joint_probability`, `update`, `normalize`,
and the driver's evidence filter) becomes a computable Lean function.
Probabilities are modelled exactly with `ℚ`.
-/

set_option maxHeartbeats 1000000

namespace Heredity

/-- A person record: optional mother and father identifiers and an
optional observed trait value (`none` when the trait is unknown),
mirroring the dictionaries built by `load_data` in `heredity.py`. -/
structure Person (α : Type) where
  mother : Option α
  father : Option α
  trait : Option Bool
deriving Repr, DecidableEq

/-- Unconditional gene-count prior, `PROBS["gene"]`. -/
def PROBS_gene : Nat → ℚ
  | 2 => 1/100
  | 1 => 3/100
  | _ => 96/100

/-- Trait table `PROBS["trait"]`: probability of trait value `t`
given `g` copies of the gene. -/
def PROBS_trait : Nat → Bool → ℚ
  | 2, true => 65/100
  | 2, false => 35/100
  | 1, true => 56/100
  | 1, false => 44/100
  | _, true => 1/100
  | _, false => 99/100

/-- Mutation probability, `PROBS["mutation"]`. -/
def PROBS_mutation : ℚ := 1/100

variable {α : Type} [DecidableEq α]

/-- Probability that `parent` passes on a copy of the gene, as in the
parent loop of the `two_genes` branch of `joint_probability`
(`heredity.py` lines 165-177): `1 - μ` with two copies, `0.5` with
one copy, `μ` with none.  This is also exactly the spec's
"transmission probability". -/
def passOn (one_gene two_genes : Finset α) (parent : α) : ℚ :=
  if parent ∈ two_genes then 1 - PROBS_mutation
  else if parent ∈ one_gene then 1/2
  else PROBS_mutation

/-- Gene factor of the `two_genes` branch when both parents are
recorded: the child receives one copy from each parent. -/
def geneFactorTwoParents (one_gene two_genes : Finset α) (father mother : α) : ℚ :=
  passOn one_gene two_genes father * passOn one_gene two_genes mother

/-- Gene factor of the `one_gene` branch when both parents are
recorded: `father_not_mother + mother_not_father`, with the constants
written exactly as `heredity.py` lines 198-234 writes them. -/
def geneFactorOneParents (one_gene two_genes : Finset α) (father mother : α) : ℚ :=
  ((if father ∈ two_genes then 1 - PROBS_mutation
    else if father ∈ one_gene then (1 : ℚ)/2
    else PROBS_mutation) *
   (if mother ∈ two_genes then PROBS_mutation
    else if mother ∈ one_gene then (1 : ℚ)/2
    else 1 - PROBS_mutation)) +
  ((if father ∈ two_genes then PROBS_mutation
    else if father ∈ one_gene then (1 : ℚ)/2
    else 1 - PROBS_mutation) *
   (if mother ∈ two_genes then 1 - PROBS_mutation
    else if mother ∈ one_gene then (1 : ℚ)/2
    else PROBS_mutation))

/-- Probability that `parent` does not pass on a copy, as in the
parent loop of the zero-gene branch (`heredity.py` lines 255-267). -/
def notPassOn (one_gene two_genes : Finset α) (parent : α) : ℚ :=
  if parent ∈ two_genes then PROBS_mutation
  else if parent ∈ one_gene then 1/2
  else 1 - PROBS_mutation

/-- Gene factor of the zero-gene branch when both parents are
recorded: the child receives a copy from neither parent. -/
def geneFactorZeroParents (one_gene two_genes : Finset α) (father mother : α) : ℚ :=
  notPassOn one_gene two_genes father * notPassOn one_gene two_genes mother

/-- The `person in two_genes` branch of `joint_probability`. -/
def branchTwo (one_gene two_genes have_trait : Finset α) (name : α)
    (pr : Person α) : ℚ :=
  (match pr.father, pr.mother with
   | some f, some m => geneFactorTwoParents one_gene two_genes f m
   | _, _ => PROBS_gene 2) *
  (if name ∈ have_trait then PROBS_trait 2 true else PROBS_trait 2 false)

/-- The `person in one_gene` branch of `joint_probability`. -/
def branchOne (one_gene two_genes have_trait : Finset α) (name : α)
    (pr : Person α) : ℚ :=
  (match pr.father, pr.mother with
   | some f, some m => geneFactorOneParents one_gene two_genes f m
   | _, _ => PROBS_gene 1) *
  (if name ∈ have_trait then PROBS_trait 1 true else PROBS_trait 1 false)

/-- The zero-gene branch of `joint_probability`. -/
def branchZero (one_gene two_genes have_trait : Finset α) (name : α)
    (pr : Person α) : ℚ :=
  (match pr.father, pr.mother with
   | some f, some m => geneFactorZeroParents one_gene two_genes f m
   | _, _ => PROBS_gene 0) *
  (if name ∈ have_trait then PROBS_trait 0 true else PROBS_trait 0 false)

/-- Per-person factor of `joint_probability` (the body of its loop):
the membership test on `two_genes` is made first, then `one_gene`. -/
def individualProbability (one_gene two_genes have_trait : Finset α)
    (name : α) (pr : Person α) : ℚ :=
  if name ∈ two_genes then branchTwo one_gene two_genes have_trait name pr
  else if name ∈ one_gene then branchOne one_gene two_genes have_trait name pr
  else branchZero one_gene two_genes have_trait name pr

/-- Model of `joint_probability(people, one_gene, two_genes, have_trait)`:
running product of the per-person factors over the registry. -/
def joint_probability (people : List (α × Person α))
    (one_gene two_genes have_trait : Finset α) : ℚ :=
  people.foldl
    (fun acc x => acc * individualProbability one_gene two_genes have_trait x.1 x.2) 1

/-- Model of `itertools.combinations(s, r)`: the length-`r` combinations of the
list `s`, each in the order of `s`, the ones containing the head
first. -/
def combinations : List α → Nat → List (List α)
  | _, 0 => [[]]
  | [], _ + 1 => []
  | a :: l, r + 1 => ((combinations l r).map (a :: ·)) ++ combinations l (r + 1)

/-- Model of `powerset(s)` from `heredity.py`: one `set(c)` for every
combination `c` of every size `r = 0, ..., len(s)`. -/
def powerset (s : List α) : List (Finset α) :=
  ((List.range (s.length + 1)).flatMap (fun r => combinations s r)).map List.toFinset

theorem mem_combinations {β : Type} : ∀ (s : List β) (r : Nat) (l : List β),
    l ∈ combinations s r ↔ l.Sublist s ∧ l.length = r := by
  intro s
  induction s with
  | nil =>
    intro r l
    cases r with
    | zero => simp [combinations, List.length_eq_zero]
    | succ n =>
      simp only [combinations, List.not_mem_nil, false_iff, not_and,
        List.sublist_nil]
      rintro rfl
      simp
  | cons a t ih =>
    intro r l
    cases r with
    | zero =>
      simp only [combinations, List.mem_singleton, List.length_eq_zero]
      exact ⟨fun h => ⟨h ▸ List.nil_sublist _, h⟩, fun h => h.2⟩
    | succ r =>
      simp only [combinations, List.mem_append, List.mem_map, ih]
      rw [List.sublist_cons_iff]
      constructor
      · rintro (⟨x, ⟨hs, hl⟩, rfl⟩ | ⟨hs, hl⟩)
        · exact ⟨Or.inr ⟨x, rfl, hs⟩, by simp [hl]⟩
        · exact ⟨Or.inl hs, hl⟩
      · rintro ⟨h1 | ⟨x, rfl, hx⟩, hl⟩
        · exact Or.inr ⟨h1, hl⟩
        · exact Or.inl ⟨x, ⟨hx, by simpa using hl⟩, rfl⟩

theorem length_combinations {β : Type} : ∀ (s : List β) (r : Nat),
    (combinations s r).length = Nat.choose s.length r := by
  intro s
  induction s with
  | nil => intro r; cases r <;> simp [combinations]
  | cons a t ih =>
    intro r
    cases r with
    | zero => simp [combinations]
    | succ r => simp [combinations, ih, Nat.choose_succ_succ]

theorem length_powerset (s : List α) : (powerset s).length = 2 ^ s.length := by
  have h1 : (powerset s).length
      = ((List.range (s.length + 1)).map
          (List.length ∘ fun r => combinations s r)).sum := by
    simp [powerset, List.length_flatMap]
  have h2 : (List.length ∘ fun r => combinations s r)
      = fun r => Nat.choose s.length r := by
    funext r
    simp [length_combinations]
  have h3 : ((List.range (s.length + 1)).map fun r => Nat.choose s.length r).sum
      = ∑ i ∈ Finset.range (s.length + 1), Nat.choose s.length i := rfl
  rw [h1, h2, h3, Nat.sum_range_choose]

theorem mem_powerset {s : List α} {t : Finset α} :
    t ∈ powerset s ↔ ∃ l : List α, l.Sublist s ∧ l.toFinset = t := by
  simp only [powerset, List.mem_map, List.mem_flatMap, List.mem_range,
    mem_combinations]
  constructor
  · rintro ⟨l, ⟨r, hr, hs, hlen⟩, rfl⟩
    exact ⟨l, hs, rfl⟩
  · rintro ⟨l, hs, rfl⟩
    exact ⟨l, ⟨l.length, Nat.lt_succ_of_le hs.length_le, hs, rfl⟩, rfl⟩

/-- As a set, `powerset s` is the power set of the set of elements
of `s`. -/
theorem toFinset_powerset (s : List α) :
    (powerset s).toFinset = s.toFinset.powerset := by
  ext t
  simp only [List.mem_toFinset, mem_powerset, Finset.mem_powerset]
  constructor
  · rintro ⟨l, hsub, rfl⟩
    exact fun x hx => List.mem_toFinset.2 (hsub.subset (List.mem_toFinset.1 hx))
  · intro ht
    refine ⟨s.filter (fun x => decide (x ∈ t)), List.filter_sublist s, ?_⟩
    rw [List.toFinset_filter]
    ext x
    simp only [Finset.mem_filter, List.mem_toFinset, decide_eq_true_eq]
    exact ⟨fun h => h.2, fun h => ⟨List.mem_toFinset.1 (ht h), h⟩⟩

theorem nodup_powerset {s : List α} (hs : s.Nodup) : (powerset s).Nodup := by
  have hcard : (powerset s).toFinset.card = 2 ^ s.length := by
    rw [toFinset_powerset, Finset.card_powerset, List.toFinset_card_of_nodup hs]
  have hded : (powerset s).dedup.length = (powerset s).length := by
    rw [← List.card_toFinset, hcard, length_powerset]
  exact List.dedup_eq_self.1 ((List.dedup_sublist _).eq_of_length hded)

/-- C3: for every duplicate-free list `s` enumerating a finite set
`S`, `powerset s` has exactly `2 ^ |S|` entries, the entries are
pairwise distinct subsets of `S`, they are exactly the subsets of `S`
(in particular `∅` and `S` itself appear), and for an empty `s` the
result is exactly the singleton collection `[∅]`. -/
theorem powerset_spec (s : List α) (hs : s.Nodup) :
    (powerset s).length = 2 ^ s.length ∧
    (powerset s).Nodup ∧
    (∀ t ∈ powerset s, t ⊆ s.toFinset) ∧
    (powerset s).toFinset = s.toFinset.powerset ∧
    (∅ : Finset α) ∈ powerset s ∧
    s.toFinset ∈ powerset s ∧
    (s = [] → powerset s = [(∅ : Finset α)]) := by
  refine ⟨length_powerset s, nodup_powerset hs, ?_, toFinset_powerset s,
    ?_, ?_, ?_⟩
  · intro t ht
    rcases mem_powerset.1 ht with ⟨l, hsub, rfl⟩
    exact fun x hx => List.mem_toFinset.2 (hsub.subset (List.mem_toFinset.1 hx))
  · exact mem_powerset.2 ⟨[], List.nil_sublist s, rfl⟩
  · exact mem_powerset.2 ⟨s, List.Sublist.refl s, rfl⟩
  · rintro rfl
    rfl

/-- Witness for `powerset_spec` at the duplicate-free list `[0, 1]`. -/
theorem powerset_spec_witness :
    ([0, 1] : List Nat).Nodup ∧
    ((powerset ([0, 1] : List Nat)).length = 2 ^ ([0, 1] : List Nat).length ∧
     (powerset ([0, 1] : List Nat)).Nodup ∧
     (∀ t ∈ powerset ([0, 1] : List Nat), t ⊆ ([0, 1] : List Nat).toFinset) ∧
     (powerset ([0, 1] : List Nat)).toFinset
        = ([0, 1] : List Nat).toFinset.powerset ∧
     (∅ : Finset Nat) ∈ powerset ([0, 1] : List Nat) ∧
     ([0, 1] : List Nat).toFinset ∈ powerset ([0, 1] : List Nat) ∧
     (([0, 1] : List Nat) = []
        → powerset ([0, 1] : List Nat) = [(∅ : Finset Nat)])) :=
  ⟨by decide, powerset_spec [0, 1] (by decide)⟩

/-- One person's accumulated tallies: the three gene buckets and the
two trait buckets of `probabilities[person]`. -/
structure PersonDist where
  gene0 : ℚ
  gene1 : ℚ
  gene2 : ℚ
  traitT : ℚ
  traitF : ℚ
deriving Repr, DecidableEq

/-- The zero-initialized tallies built at the start of `main`. -/
def zeroDist : PersonDist := ⟨0, 0, 0, 0, 0⟩

/-- The `probabilities` mapping as built by `main`: one
zero-initialized `PersonDist` per person of the registry. -/
def initProbs (people : List (α × Person α)) : List (α × PersonDist) :=
  people.map (fun x => (x.1, zeroDist))

/-- Sum of the three gene buckets, in the order `0, 1, 2` in which
`normalize` adds them. -/
def geneSum (d : PersonDist) : ℚ := d.gene0 + d.gene1 + d.gene2

/-- Sum of the two trait buckets, `True` first as in `normalize`. -/
def traitSum (d : PersonDist) : ℚ := d.traitT + d.traitF

/-- Body of the loop of `update`: the `one_gene` membership test is
made first, then `two_genes`. -/
def updateEntry (one_gene two_genes have_trait : Finset α) (p : ℚ)
    (x : α × PersonDist) : α × PersonDist :=
  let d1 :=
    if x.1 ∈ one_gene then { x.2 with gene1 := x.2.gene1 + p }
    else if x.1 ∈ two_genes then { x.2 with gene2 := x.2.gene2 + p }
    else { x.2 with gene0 := x.2.gene0 + p }
  let d2 :=
    if x.1 ∈ have_trait then { d1 with traitT := d1.traitT + p }
    else { d1 with traitF := d1.traitF + p }
  (x.1, d2)

/-- Model of `update(probabilities, one_gene, two_genes, have_trait, p)`:
adds the joint probability `p` into one gene bucket and one trait
bucket of every person. -/
def update (probabilities : List (α × PersonDist))
    (one_gene two_genes have_trait : Finset α) (p : ℚ) :
    List (α × PersonDist) :=
  probabilities.map (updateEntry one_gene two_genes have_trait p)

/-- Body of the loop of `normalize`, with the divisions made fallible
the way Python raises `ZeroDivisionError`: the gene buckets are
summed (counts `0, 1, 2`) and divided first, then the trait
buckets. -/
def normalizeEntry (x : α × PersonDist) : Option (α × PersonDist) :=
  let gene_norm := x.2.gene0 + x.2.gene1 + x.2.gene2
  if gene_norm = 0 then none
  else
    let trait_norm := x.2.traitT + x.2.traitF
    if trait_norm = 0 then none
    else
      some (x.1,
        { gene0 := x.2.gene0 / gene_norm
          gene1 := x.2.gene1 / gene_norm
          gene2 := x.2.gene2 / gene_norm
          traitT := x.2.traitT / trait_norm
          traitF := x.2.traitF / trait_norm })

/-- Model of `normalize(probabilities)`: rescale every person's tallies;
`none` models the uncaught `ZeroDivisionError`. -/
def normalize : List (α × PersonDist) → Option (List (α × PersonDist))
  | [] => some []
  | x :: xs =>
    match normalizeEntry x, normalize xs with
    | some y, some ys => some (y :: ys)
    | _, _ => none

/-- The evidence check of `main` (`heredity.py` lines 69-75): true
when some person's recorded trait contradicts membership in
`have_trait`. -/
def fails_evidence (people : List (α × Person α))
    (have_trait : Finset α) : Bool :=
  people.any fun x =>
    match x.2.trait with
    | some t => t != decide (x.1 ∈ have_trait)
    | none => false

/-- One iteration of the outer loop of `main`: skip `have_trait` when
it violates the evidence, otherwise accumulate the joint probability
of every `(one_gene, two_genes)` pair drawn from the registry
names. -/
def traitStep (people : List (α × Person α))
    (probabilities : List (α × PersonDist)) (have_trait : Finset α) :
    List (α × PersonDist) :=
  if fails_evidence people have_trait then probabilities
  else
    (powerset (people.map Prod.fst)).foldl
      (fun pr1 one_gene =>
        (powerset ((people.map Prod.fst).filter
            (fun n => decide (n ∉ one_gene)))).foldl
          (fun pr2 two_genes =>
            update pr2 one_gene two_genes have_trait
              (joint_probability people one_gene two_genes have_trait))
          pr1)
      probabilities

/-- The whole pipeline of `main` after loading: enumerate the trait
subsets, accumulate, normalize. -/
def mainDistribution (people : List (α × Person α)) :
    Option (List (α × PersonDist)) :=
  normalize
    ((powerset (people.map Prod.fst)).foldl (traitStep people)
      (initProbs people))

/-- The store of `joint_probability`'s inputs, for stating that the
function leaves them untouched. -/
structure JPInput (α : Type) where
  people : List (α × Person α)
  one_gene : Finset α
  two_genes : Finset α
  have_trait : Finset α

/-- Model of `joint_probability` with its input store threaded through the
loop: each iteration reads the store it is handed and passes it on,
mirroring how the Python body only ever reads `people`, `one_gene`,
`two_genes` and `have_trait` and assigns only its local
accumulators. -/
def jointProbabilityRun [DecidableEq α] (st : JPInput α) : ℚ × JPInput α :=
  st.people.foldl
    (fun acc x =>
      (acc.1 * individualProbability acc.2.one_gene acc.2.two_genes
          acc.2.have_trait x.1 x.2,
       acc.2))
    (1, st)

/-- The three names of the registry used by `test_heredity.py`. -/
inductive Name where
  | Harry
  | James
  | Lily
deriving Repr, DecidableEq

/-- The three-person registry of `test_joint_probability`: Harry has
mother Lily and father James and unknown trait; James has no parents
and the trait; Lily has no parents and no trait. -/
def testPeople : List (Name × Person Name) :=
  [(Name.Harry, ⟨some Name.Lily, some Name.James, none⟩),
   (Name.James, ⟨none, none, some true⟩),
   (Name.Lily, ⟨none, none, some false⟩)]

/-- C1: on the three-person test registry,
`joint_probability(people, {Harry}, {James}, {James})` equals
`0.0026643247488 = 26643247488 / 10^13`. -/
theorem joint_probability_test_value :
    joint_probability testPeople {Name.Harry} {Name.James} {Name.James} =
      26643247488 / 10 ^ 13 := by
  simp [joint_probability, testPeople, individualProbability,
    branchTwo, branchOne, branchZero, geneFactorOneParents, geneFactorTwoParents,
    geneFactorZeroParents, passOn, notPassOn, PROBS_gene, PROBS_trait,
    PROBS_mutation, Finset.mem_singleton]
  norm_num

theorem individualProbability_mem_unit (one_gene two_genes have_trait : Finset α)
    (name : α) (pr : Person α) :
    0 ≤ individualProbability one_gene two_genes have_trait name pr ∧
      individualProbability one_gene two_genes have_trait name pr ≤ 1 := by
  obtain ⟨mo, fa, tr⟩ := pr
  rcases fa with _ | f <;> rcases mo with _ | m <;>
    simp only [individualProbability, branchTwo, branchOne, branchZero,
      geneFactorTwoParents, geneFactorOneParents, geneFactorZeroParents,
      passOn, notPassOn, PROBS_gene, PROBS_trait, PROBS_mutation] <;>
    split_ifs <;> constructor <;> norm_num

theorem foldl_mul_mem_unit (one_gene two_genes have_trait : Finset α) :
    ∀ (l : List (α × Person α)) (a : ℚ), 0 ≤ a → a ≤ 1 →
      0 ≤ l.foldl
          (fun acc x =>
            acc * individualProbability one_gene two_genes have_trait x.1 x.2) a ∧
        l.foldl
          (fun acc x =>
            acc * individualProbability one_gene two_genes have_trait x.1 x.2) a ≤ 1 := by
  intro l
  induction l with
  | nil => intro a h0 h1; exact ⟨h0, h1⟩
  | cons x xs ih =>
    intro a h0 h1
    have hx := individualProbability_mem_unit one_gene two_genes have_trait x.1 x.2
    simp only [List.foldl_cons]
    refine ih _ (mul_nonneg h0 hx.1) ?_
    nlinarith [hx.1, hx.2]

/-- C2: for a gene assignment whose one-gene and two-gene sets are
disjoint subsets of the registry's names and a trait subset of those
names, `joint_probability` returns a value in `[0, 1]`. -/
theorem joint_probability_mem_unit (people : List (α × Person α))
    (one_gene two_genes have_trait : Finset α)
    (hd : Disjoint one_gene two_genes)
    (h1 : one_gene ⊆ (people.map Prod.fst).toFinset)
    (h2 : two_genes ⊆ (people.map Prod.fst).toFinset)
    (h3 : have_trait ⊆ (people.map Prod.fst).toFinset) :
    0 ≤ joint_probability people one_gene two_genes have_trait ∧
      joint_probability people one_gene two_genes have_trait ≤ 1 := by
  unfold joint_probability
  exact foldl_mul_mem_unit one_gene two_genes have_trait people 1
    (by norm_num) (by norm_num)

/-- Witness for `joint_probability_mem_unit` on the test registry. -/
theorem joint_probability_mem_unit_witness :
    Disjoint ({Name.Harry} : Finset Name) {Name.James} ∧
    ({Name.Harry} : Finset Name) ⊆ (testPeople.map Prod.fst).toFinset ∧
    ({Name.James} : Finset Name) ⊆ (testPeople.map Prod.fst).toFinset ∧
    (0 ≤ joint_probability testPeople {Name.Harry} {Name.James} {Name.James} ∧
      joint_probability testPeople {Name.Harry} {Name.James} {Name.James} ≤ 1) :=
  ⟨by decide, by decide, by decide,
    joint_probability_mem_unit testPeople {Name.Harry} {Name.James}
      {Name.James} (by decide) (by decide) (by decide) (by decide)⟩

/-- C4: for a person assigned one copy whose parents are both
recorded, the gene factor inside `joint_probability` is the father's
transmission probability times one minus the mother's, plus the
mother's times one minus the father's, with `passOn` the transmission
model (`1 - μ`, `0.5`, `μ`). -/
theorem one_gene_factor_eq (one_gene two_genes have_trait : Finset α)
    (name f m : α) (pr : Person α)
    (hg : name ∈ one_gene) (hg2 : name ∉ two_genes)
    (hf : pr.father = some f) (hm : pr.mother = some m) :
    individualProbability one_gene two_genes have_trait name pr =
      (passOn one_gene two_genes f * (1 - passOn one_gene two_genes m) +
        passOn one_gene two_genes m * (1 - passOn one_gene two_genes f)) *
      (if name ∈ have_trait then PROBS_trait 1 true
        else PROBS_trait 1 false) := by
  simp only [individualProbability, if_neg hg2, if_pos hg, branchOne, hf, hm]
  congr 1
  unfold geneFactorOneParents passOn PROBS_mutation
  split_ifs <;> norm_num

/-- Witness for `one_gene_factor_eq`: Harry with one copy, father
James with two copies, mother Lily with none. -/
theorem one_gene_factor_eq_witness :
    Name.Harry ∈ ({Name.Harry} : Finset Name) ∧
    Name.Harry ∉ ({Name.James} : Finset Name) ∧
    (Person.father ⟨some Name.Lily, some Name.James, none⟩
        = some Name.James) ∧
    (Person.mother ⟨some Name.Lily, some Name.James, none⟩
        = some Name.Lily) ∧
    individualProbability {Name.Harry} {Name.James} {Name.James} Name.Harry
        ⟨some Name.Lily, some Name.James, none⟩ =
      (passOn {Name.Harry} {Name.James} Name.James *
          (1 - passOn {Name.Harry} {Name.James} Name.Lily) +
        passOn {Name.Harry} {Name.James} Name.Lily *
          (1 - passOn {Name.Harry} {Name.James} Name.James)) *
      (if Name.Harry ∈ ({Name.James} : Finset Name) then PROBS_trait 1 true
        else PROBS_trait 1 false) :=
  ⟨by decide, by decide, rfl, rfl,
    one_gene_factor_eq {Name.Harry} {Name.James} {Name.James} Name.Harry
      Name.James Name.Lily ⟨some Name.Lily, some Name.James, none⟩
      (by decide) (by decide) rfl rfl⟩

/-- C5: a trait subset contradicting some person's recorded trait is
skipped by the driver: the outer-loop step returns the accumulated
tallies unchanged, so no assignment containing that subset
contributes. -/
theorem traitStep_skips_contradicted (people : List (α × Person α))
    (probabilities : List (α × PersonDist)) (have_trait : Finset α)
    (h : ∃ x ∈ people, ∃ t, x.2.trait = some t
        ∧ t ≠ decide (x.1 ∈ have_trait)) :
    traitStep people probabilities have_trait = probabilities := by
  have hfail : fails_evidence people have_trait = true := by
    rcases h with ⟨x, hx, t, ht, hne⟩
    refine List.any_eq_true.2 ⟨x, hx, ?_⟩
    simp only [ht, bne_iff_ne, ne_eq]
    exact hne
  simp [traitStep, hfail]

/-- Witness for `traitStep_skips_contradicted`: James has the trait
recorded but is outside the empty trait subset. -/
theorem traitStep_skips_contradicted_witness :
    (∃ x ∈ testPeople, ∃ t, (Person.trait x.2) = some t
        ∧ t ≠ decide (x.1 ∈ (∅ : Finset Name))) ∧
    traitStep testPeople (initProbs testPeople) (∅ : Finset Name)
        = initProbs testPeople :=
  ⟨by decide,
    traitStep_skips_contradicted testPeople (initProbs testPeople) ∅
      (by decide)⟩

/-- The rescaling of one entry, written out totally: every bucket
divided by its group's old sum. -/
def normalizeEntryTotal (x : α × PersonDist) : α × PersonDist :=
  (x.1,
    { gene0 := x.2.gene0 / geneSum x.2
      gene1 := x.2.gene1 / geneSum x.2
      gene2 := x.2.gene2 / geneSum x.2
      traitT := x.2.traitT / traitSum x.2
      traitF := x.2.traitF / traitSum x.2 })

theorem normalize_eq_total : ∀ probabilities : List (α × PersonDist),
    (∀ x ∈ probabilities, geneSum x.2 ≠ 0 ∧ traitSum x.2 ≠ 0) →
    normalize probabilities
      = some (probabilities.map normalizeEntryTotal) := by
  intro l
  induction l with
  | nil => intro _; rfl
  | cons x xs ih =>
    intro h
    have hx := h x (List.mem_cons_self x xs)
    have hxs := ih (fun y hy => h y (List.mem_cons_of_mem _ hy))
    have h1 := hx.1
    have h2 := hx.2
    unfold geneSum at h1
    unfold traitSum at h2
    have hentry : normalizeEntry x = some (normalizeEntryTotal x) := by
      simp [normalizeEntry, normalizeEntryTotal, geneSum, traitSum, h1, h2]
    simp [normalize, hentry, hxs]

theorem normalizeEntryTotal_sums (x : α × PersonDist)
    (h1 : geneSum x.2 ≠ 0) (h2 : traitSum x.2 ≠ 0) :
    geneSum (normalizeEntryTotal x).2 = 1
      ∧ traitSum (normalizeEntryTotal x).2 = 1 := by
  unfold normalizeEntryTotal geneSum traitSum at *
  constructor
  · rw [div_add_div_same, div_add_div_same, div_self h1]
  · rw [div_add_div_same, div_self h2]

/-- C6: when every person's gene tallies and trait tallies have
nonzero sums, `normalize` succeeds, each new value is the old value
divided by its group's old sum, and each person's gene distribution
and trait distribution sum to `1`. -/
theorem normalize_correct (probabilities : List (α × PersonDist))
    (h : ∀ x ∈ probabilities, geneSum x.2 ≠ 0 ∧ traitSum x.2 ≠ 0) :
    normalize probabilities = some (probabilities.map normalizeEntryTotal) ∧
    ∀ x ∈ probabilities.map normalizeEntryTotal,
      geneSum x.2 = 1 ∧ traitSum x.2 = 1 := by
  refine ⟨normalize_eq_total probabilities h, ?_⟩
  intro y hy
  rcases List.mem_map.1 hy with ⟨x, hx, rfl⟩
  exact normalizeEntryTotal_sums x (h x hx).1 (h x hx).2

/-- Witness for `normalize_correct` at a one-person mapping with
tallies `1, 2, 3` and `4, 5`. -/
theorem normalize_correct_witness :
    (∀ x ∈ [((0 : Nat), (⟨1, 2, 3, 4, 5⟩ : PersonDist))],
        geneSum x.2 ≠ 0 ∧ traitSum x.2 ≠ 0) ∧
    (normalize [((0 : Nat), (⟨1, 2, 3, 4, 5⟩ : PersonDist))]
        = some ([((0 : Nat), (⟨1, 2, 3, 4, 5⟩ : PersonDist))].map
            normalizeEntryTotal) ∧
      ∀ x ∈ [((0 : Nat), (⟨1, 2, 3, 4, 5⟩ : PersonDist))].map
          normalizeEntryTotal,
        geneSum x.2 = 1 ∧ traitSum x.2 = 1) := by
  have h : ∀ x ∈ [((0 : Nat), (⟨1, 2, 3, 4, 5⟩ : PersonDist))],
      geneSum x.2 ≠ 0 ∧ traitSum x.2 ≠ 0 := by
    intro x hx
    rcases List.mem_singleton.1 hx with rfl
    constructor <;> norm_num [geneSum, traitSum]
  exact ⟨h, normalize_correct _ h⟩

/-- C7: `normalize` does not guard the zero-sum case: as soon as some
person's gene tallies or trait tallies sum to zero, the division
fails (the model of Python's uncaught `ZeroDivisionError`), with no
fallback distribution and no unchanged output. -/
theorem normalize_zero_sum_fails (probabilities : List (α × PersonDist))
    (h : ∃ x ∈ probabilities, geneSum x.2 = 0 ∨ traitSum x.2 = 0) :
    normalize probabilities = none := by
  induction probabilities with
  | nil =>
    rcases h with ⟨x, hx, _⟩
    exact absurd hx (List.not_mem_nil x)
  | cons y ys ih =>
    rcases h with ⟨x, hx, hzero⟩
    rcases List.mem_cons.1 hx with rfl | hx2
    · have hfail : normalizeEntry x = none := by
        unfold geneSum at hzero
        unfold traitSum at hzero
        rcases hzero with h0 | h0
        · simp [normalizeEntry, h0]
        · by_cases hg : x.2.gene0 + x.2.gene1 + x.2.gene2 = 0
          · simp [normalizeEntry, hg]
          · simp [normalizeEntry, hg, h0]
      simp [normalize, hfail]
    · have hys := ih ⟨x, hx2, hzero⟩
      simp only [normalize, hys]
      cases normalizeEntry y <;> rfl

/-- Witness for `normalize_zero_sum_fails`: the zero-initialized
one-person mapping. -/
theorem normalize_zero_sum_fails_witness :
    (∃ x ∈ [((0 : Nat), zeroDist)], geneSum x.2 = 0 ∨ traitSum x.2 = 0) ∧
    normalize [((0 : Nat), zeroDist)] = none := by
  have h : ∃ x ∈ [((0 : Nat), zeroDist)],
      geneSum x.2 = 0 ∨ traitSum x.2 = 0 := by
    refine ⟨((0 : Nat), zeroDist), List.mem_singleton.2 rfl, Or.inl ?_⟩
    norm_num [geneSum, zeroDist]
  exact ⟨h, normalize_zero_sum_fails _ h⟩

theorem foldl_pair :
    ∀ (l : List (α × Person α)) (a : ℚ) (st : JPInput α),
      l.foldl
        (fun acc x =>
          (acc.1 * individualProbability acc.2.one_gene acc.2.two_genes
              acc.2.have_trait x.1 x.2,
            acc.2)) (a, st)
        = (l.foldl
            (fun a' x =>
              a' * individualProbability st.one_gene st.two_genes
                st.have_trait x.1 x.2) a,
          st) := by
  intro l
  induction l with
  | nil => intro a st; rfl
  | cons x xs ih =>
    intro a st
    simp only [List.foldl_cons]
    exact ih _ _

/-- C8: `joint_probability` does not mutate its inputs: threading the
input store through its loop returns the store unchanged, while the
value computed is `joint_probability` of the original inputs. -/
theorem jointProbabilityRun_preserves_inputs (st : JPInput α) :
    (jointProbabilityRun st).2 = st ∧
    (jointProbabilityRun st).1 =
      joint_probability st.people st.one_gene st.two_genes st.have_trait := by
  obtain ⟨people, og, tg, ht⟩ := st
  unfold jointProbabilityRun joint_probability
  rw [foldl_pair]
  exact ⟨rfl, rfl⟩

theorem updateEntry_spec (one_gene two_genes have_trait : Finset α) (p : ℚ)
    (x : α × PersonDist) :
    (updateEntry one_gene two_genes have_trait p x).1 = x.1 ∧
    (((updateEntry one_gene two_genes have_trait p x).2.gene1 = x.2.gene1 + p ∧
        (updateEntry one_gene two_genes have_trait p x).2.gene2 = x.2.gene2 ∧
        (updateEntry one_gene two_genes have_trait p x).2.gene0 = x.2.gene0) ∨
      ((updateEntry one_gene two_genes have_trait p x).2.gene2 = x.2.gene2 + p ∧
        (updateEntry one_gene two_genes have_trait p x).2.gene1 = x.2.gene1 ∧
        (updateEntry one_gene two_genes have_trait p x).2.gene0 = x.2.gene0) ∨
      ((updateEntry one_gene two_genes have_trait p x).2.gene0 = x.2.gene0 + p ∧
        (updateEntry one_gene two_genes have_trait p x).2.gene1 = x.2.gene1 ∧
        (updateEntry one_gene two_genes have_trait p x).2.gene2 = x.2.gene2)) ∧
    (((updateEntry one_gene two_genes have_trait p x).2.traitT = x.2.traitT + p ∧
        (updateEntry one_gene two_genes have_trait p x).2.traitF = x.2.traitF) ∨
      ((updateEntry one_gene two_genes have_trait p x).2.traitF = x.2.traitF + p ∧
        (updateEntry one_gene two_genes have_trait p x).2.traitT = x.2.traitT)) := by
  obtain ⟨n, g0, g1, g2, tT, tF⟩ := x
  simp only [updateEntry]
  split_ifs <;> simp

theorem update_preserves_balance (one_gene two_genes have_trait : Finset α)
    (p : ℚ) (probs : List (α × PersonDist))
    (h : ∀ x ∈ probs, geneSum x.2 = traitSum x.2) :
    ∀ y ∈ update probs one_gene two_genes have_trait p,
      geneSum y.2 = traitSum y.2 := by
  intro y hy
  rcases List.mem_map.1 hy with ⟨x, hx, rfl⟩
  obtain ⟨hkey, hg, ht2⟩ := updateEntry_spec one_gene two_genes have_trait p x
  have hbal := h x hx
  unfold geneSum traitSum at *
  rcases hg with ⟨e1, e2, e3⟩ | ⟨e1, e2, e3⟩ | ⟨e1, e2, e3⟩ <;>
    rcases ht2 with ⟨e4, e5⟩ | ⟨e4, e5⟩ <;>
    rw [e1, e2, e3, e4, e5] <;> linarith

theorem foldl_update_balance
    (steps : List ((Finset α × Finset α × Finset α) × ℚ)) :
    ∀ probs : List (α × PersonDist),
      (∀ x ∈ probs, geneSum x.2 = traitSum x.2) →
      ∀ y ∈ steps.foldl
          (fun pr s => update pr s.1.1 s.1.2.1 s.1.2.2 s.2) probs,
        geneSum y.2 = traitSum y.2 := by
  induction steps with
  | nil => intro probs h; simpa using h
  | cons s ss ih =>
    intro probs h
    simp only [List.foldl_cons]
    exact ih _ (update_preserves_balance _ _ _ _ _ h)

/-- C9: every `update` call keeps each person's key, adds `p` to
exactly one of the three gene buckets and exactly one of the two
trait buckets leaving the others unchanged; consequently any
sequence of updates starting from the zero-initialized mapping of
`main` keeps each person's gene tallies and trait tallies at equal
sums. -/
theorem update_spec {β : Type} [DecidableEq β] :
    (∀ (one_gene two_genes have_trait : Finset β) (p : ℚ)
        (probs : List (β × PersonDist)),
      List.Forall₂
        (fun x y => y.1 = x.1 ∧
          ((y.2.gene1 = x.2.gene1 + p ∧ y.2.gene2 = x.2.gene2
              ∧ y.2.gene0 = x.2.gene0) ∨
            (y.2.gene2 = x.2.gene2 + p ∧ y.2.gene1 = x.2.gene1
              ∧ y.2.gene0 = x.2.gene0) ∨
            (y.2.gene0 = x.2.gene0 + p ∧ y.2.gene1 = x.2.gene1
              ∧ y.2.gene2 = x.2.gene2)) ∧
          ((y.2.traitT = x.2.traitT + p ∧ y.2.traitF = x.2.traitF) ∨
            (y.2.traitF = x.2.traitF + p ∧ y.2.traitT = x.2.traitT)))
        probs (update probs one_gene two_genes have_trait p)) ∧
    (∀ (people : List (β × Person β))
        (steps : List ((Finset β × Finset β × Finset β) × ℚ)),
      ∀ y ∈ steps.foldl
          (fun pr s => update pr s.1.1 s.1.2.1 s.1.2.2 s.2)
          (initProbs people),
        geneSum y.2 = traitSum y.2) := by
  constructor
  · intro one_gene two_genes have_trait p probs
    induction probs with
    | nil => exact List.Forall₂.nil
    | cons x xs ih =>
      simp only [update, List.map_cons]
      refine List.Forall₂.cons ?_ ih
      obtain ⟨h1, h2, h3⟩ := updateEntry_spec one_gene two_genes have_trait p x
      exact ⟨h1, h2, h3⟩
  · intro people steps
    refine foldl_update_balance steps (initProbs people) ?_
    intro x hx
    rcases List.mem_map.1 hx with ⟨z, hz, rfl⟩
    simp [geneSum, traitSum, zeroDist]

/-- C10: a person belonging to both `one_gene` and `two_genes` is
treated by `joint_probability` as carrying two copies (its
`two_genes` test comes first), while `update` credits that person's
one-gene bucket (its `one_gene` test comes first), leaving the
two-gene bucket unchanged. -/
theorem overlap_classified_differently
    (one_gene two_genes have_trait : Finset α) (p : ℚ)
    (name : α) (pr : Person α) (d : α × PersonDist)
    (h1 : name ∈ one_gene) (h2 : name ∈ two_genes) (hd : d.1 = name) :
    individualProbability one_gene two_genes have_trait name pr
        = branchTwo one_gene two_genes have_trait name pr ∧
    (updateEntry one_gene two_genes have_trait p d).2.gene1 = d.2.gene1 + p ∧
    (updateEntry one_gene two_genes have_trait p d).2.gene2 = d.2.gene2 := by
  refine ⟨by simp [individualProbability, h2], ?_, ?_⟩ <;>
    obtain ⟨n, g0, g1, g2, tT, tF⟩ := d <;>
    rcases hd with rfl <;>
    simp [updateEntry, h1] <;>
    split_ifs <;> rfl

/-- Witness for `overlap_classified_differently`: Harry placed in
both gene sets. -/
theorem overlap_classified_differently_witness :
    Name.Harry ∈ ({Name.Harry} : Finset Name) ∧
    Name.Harry ∈ ({Name.Harry} : Finset Name) ∧
    ((Name.Harry, zeroDist) : Name × PersonDist).1 = Name.Harry ∧
    (individualProbability {Name.Harry} {Name.Harry} (∅ : Finset Name)
          Name.Harry ⟨some Name.Lily, some Name.James, none⟩
        = branchTwo {Name.Harry} {Name.Harry} (∅ : Finset Name)
          Name.Harry ⟨some Name.Lily, some Name.James, none⟩ ∧
      (updateEntry {Name.Harry} {Name.Harry} (∅ : Finset Name) 1
          (Name.Harry, zeroDist)).2.gene1 = zeroDist.gene1 + 1 ∧
      (updateEntry {Name.Harry} {Name.Harry} (∅ : Finset Name) 1
          (Name.Harry, zeroDist)).2.gene2 = zeroDist.gene2) :=
  ⟨by decide, by decide, rfl,
    overlap_classified_differently {Name.Harry} {Name.Harry} ∅ 1 Name.Harry
      ⟨some Name.Lily, some Name.James, none⟩ (Name.Harry, zeroDist)
      (by decide) (by decide) rfl⟩

end Heredity
